import Mathlib

/-!
Verification development for the boxerdb storage engine (a single-file
copy-on-write B+ tree written in Rust).  The Rust source is shallowly
embedded: byte buffers become `List Nat`, machine integers become `Nat`
with explicit `% 2^w` truncation where the source casts, panics and
`unwrap` failures become `Option`/`Except` error outcomes, and the
on-disk file becomes an explicit `List Nat` threaded through the
operations.  Fuel parameters make the disk-following recursions
structural; every use supplies fuel exceeding the recursion depth, so
fuel exhaustion (reported as an error carrying the current file) never
fires on the runs studied here.
-/

/-- Byte strings (`Vec<u8>` in the source).  Values are intended to be
`< 256`; the codec never truncates data bytes, so no side condition is
needed for the theorems below. -/
abbrev Bytes := List Nat

/-- Little-endian byte representation, `k` bytes wide: models Rust's
`to_le_bytes` (for `u16` take `k = 2`, for `u64` take `k = 8`; the
`as u16` / `as u64` truncating casts are the implicit `% 256^k`). -/
def leBytes : Nat → Nat → Bytes
  | 0, _ => []
  | k + 1, n => n % 256 :: leBytes k (n / 256)

/-- Little-endian value of a byte list: models Rust's `from_le_bytes`. -/
def leVal : Bytes → Nat
  | [] => 0
  | b :: bs => b + 256 * leVal bs

/-- Bytes of `n as u16` (`u16::to_le_bytes`). -/
def u16le (n : Nat) : Bytes := leBytes 2 n

/-- Bytes of `n as u64` (`u64::to_le_bytes`). -/
def u64le (n : Nat) : Bytes := leBytes 8 n

/-- Rust `buf[a..b].to_vec()`: `none` models the slice-out-of-range
panic. -/
def byteSlice (buf : Bytes) (a b : Nat) : Option Bytes :=
  if a ≤ b ∧ b ≤ buf.length then some ((buf.drop a).take (b - a)) else none

/-- Read an `n`-byte little-endian integer at `pos`: models
`uNN::from_le_bytes(buf[pos..pos+n])`, `none` on out-of-range. -/
def readLE (buf : Bytes) (pos n : Nat) : Option Nat :=
  (byteSlice buf pos (pos + n)).map leVal

/-- Rust `buf[pos..pos+data.len()].copy_from_slice(data)` on a buffer:
overwrite `data.length` bytes at `pos`.  Callers establish
`pos + data.length ≤ buf.length`; the out-of-bounds panic is handled by
guards in the callers. -/
def writeBytes (buf : Bytes) (pos : Nat) (data : Bytes) : Bytes :=
  buf.take pos ++ data ++ buf.drop (pos + data.length)

/-- Rust `Vec::insert(pos, a)` for `pos ≤ len`. -/
def listInsertAt (pos : Nat) (a : α) (l : List α) : List α :=
  l.take pos ++ a :: l.drop pos

/-- Rust `Vec::remove(pos)` for `pos < len` (the removed element is
discarded by all call sites in the source). -/
def listRemoveAt (pos : Nat) (l : List α) : List α :=
  l.take pos ++ l.drop (pos + 1)

/-! ## The node type and the page codec (`src/storage/node.rs`) -/

/-- In-memory B+ tree node (`Node` in `node.rs`): a leaf carries one
value per key and no children; an internal node carries `keys + 1`
child page offsets and no values. -/
structure Node where
  keys : List Bytes
  children : List Nat
  values : List Bytes
deriving DecidableEq

/-- Node kind tag for internal pages (`BNODE_INTERNAL`). -/
def BNODE_INTERNAL : Nat := 0

/-- Node kind tag for leaf pages (`BNODE_LEAF`). -/
def BNODE_LEAF : Nat := 1

/-- Outcome of encoding a node into one page.  `node.rs`'s
constants-based `encode_node` panics both on the size asserts and on
out-of-page buffer writes; the config-aware try-encode used by
`DiskManager` (its body is absent from `src/`; modelled from spec §4.1)
keeps the asserts as panics and turns a cursor that would exceed the
page size into the needs-split signal.  `panicked` covers the asserts
and slice-length-mismatch panics; `needSplit` covers writes past the
page end. -/
inductive EncodeOutcome where
  | panicked
  | needSplit
  | encoded (page : Bytes)
deriving DecidableEq

/-- Pair each key with the value the encoder reads for it: a leaf reads
`node.values[i]` (so `none` models the index panic when `values` is
shorter than `keys`, and surplus values are ignored); an internal node
uses the empty slice for every key. -/
def mkPairs (isLeaf : Bool) (keys values : List Bytes) : Option (List (Bytes × Bytes)) :=
  if isLeaf then
    if keys.length ≤ values.length then some (keys.zip values) else none
  else some (keys.map fun k => (k, []))

/-- Per-key loop of `encode_node` (`node.rs` lines 38–66): for the
`i`-th pair, write the slot offset (`cursor as u16`) into the offset
array at `osStart + 2*i`, then the `key_len`/`val_len` fields and the
key and value bytes at the cursor.  Checks appear in source order: the
two size asserts, then each buffer write's bound (out-of-page writes
are the needs-split signal, see `EncodeOutcome`), with the
`copy_from_slice` length-mismatch panics where the copies happen. -/
def encodeSlots (maxK maxV P osStart : Nat) :
    List (Bytes × Bytes) → Nat → Bytes → Nat → EncodeOutcome
  | [], _, buf, _ => .encoded buf
  | (key, val) :: rest, i, buf, cursor =>
    let keyLen := key.length % 65536
    let valLen := val.length % 65536
    if maxK < keyLen ∨ maxV < valLen then .panicked
    else if P < cursor + 4 then .needSplit
    else if key.length ≠ keyLen then .panicked
    else if P < cursor + 4 + keyLen then .needSplit
    else if val.length ≠ valLen then .panicked
    else if P < cursor + 4 + keyLen + valLen then .needSplit
    else
      let buf1 := writeBytes buf (osStart + 2 * i) (u16le cursor)
      let buf2 := writeBytes buf1 cursor (u16le keyLen)
      let buf3 := writeBytes buf2 (cursor + 2) (u16le valLen)
      let buf4 := writeBytes buf3 (cursor + 4) key
      let buf5 := writeBytes buf4 (cursor + 4 + keyLen) val
      encodeSlots maxK maxV P osStart rest (i + 1) buf5 (cursor + 4 + keyLen + valLen)

/-- Child-pointer loop of `encode_node` (`node.rs` lines 30–34): write
each child offset as 8 little-endian bytes, advancing by 8. -/
def writeChildren : Bytes → Nat → List Nat → Bytes
  | buf, _, [] => buf
  | buf, pos, c :: cs => writeChildren (writeBytes buf pos (u64le c)) (pos + 8) cs

/-- `Node::encode_node` over a page of size `P` with key/value size
limits `maxK`/`maxV` (`node.rs` uses the constants 4096/1000/3000; the
`DiskManager` try-encode uses the storage config).  Layout per spec
§4.1: tag byte, `u16` key count, child offsets (internal only), the
`u16` slot-offset array, then the key/value slots; the rest of the
zero-filled page stays zero. -/
def encode_node (P maxK maxV : Nat) (node : Node) : EncodeOutcome :=
  if P < 3 then .needSplit
  else
    let nodeType := if node.children.isEmpty then BNODE_LEAF else BNODE_INTERNAL
    let buf0 := List.replicate P 0
    let buf1 := writeBytes buf0 0 [nodeType]
    let numKeys := node.keys.length % 65536
    let buf2 := writeBytes buf1 1 (u16le numKeys)
    if nodeType = BNODE_INTERNAL then
      if node.children.length ≠ node.keys.length + 1 then .panicked
      else if P < 3 + 8 * node.children.length then .needSplit
      else
        let buf3 := writeChildren buf2 3 node.children
        let osStart := 3 + 8 * node.children.length
        match mkPairs false node.keys node.values with
        | none => .panicked
        | some pairs => encodeSlots maxK maxV P osStart pairs 0 buf3 (osStart + 2 * numKeys)
    else
      match mkPairs true node.keys node.values with
      | none => .panicked
      | some pairs => encodeSlots maxK maxV P 3 pairs 0 buf2 (3 + 2 * numKeys)

/-- Read one key/value slot during decoding (`node.rs` lines 99–117):
the `u16` key and value lengths at `off`, the key bytes, and (for a
leaf only) the value bytes. -/
def readSlot (isLeaf : Bool) (buf : Bytes) (off : Nat) : Option (Bytes × Bytes) := do
  let kl ← readLE buf off 2
  let vl ← readLE buf (off + 2) 2
  let key ← byteSlice buf (off + 4) (off + 4 + kl)
  if isLeaf then
    let val ← byteSlice buf (off + 4 + kl) (off + 4 + kl + vl)
    some (key, val)
  else
    some (key, [])

/-- Read `n` little-endian integers of `width` bytes starting at
`start` and stepping by `step`: the child-pointer and slot-offset
reading loops of `decode_node`. -/
def readSeq (buf : Bytes) (start step width : Nat) : Nat → Option (List Nat)
  | 0 => some []
  | n + 1 => do
    let v ← readLE buf start width
    let rest ← readSeq buf (start + step) step width n
    some (v :: rest)

/-- Slot-reading loop of `decode_node` (`node.rs` lines 99–117). -/
def readSlots (isLeaf : Bool) (buf : Bytes) : List Nat → Option (List (Bytes × Bytes))
  | [] => some []
  | off :: rest => do
    let s ← readSlot isLeaf buf off
    let ss ← readSlots isLeaf buf rest
    some (s :: ss)

/-- `Node::decode_node` (`node.rs` lines 71–124): read the tag and key
count, the `n+1` child pointers when the tag is not `BNODE_LEAF`, the
`n` slot offsets, then every slot; `none` models the indexing and
slicing panics on a malformed page. -/
def decode_node (buf : Bytes) : Option Node := do
  let tag ← buf[0]?
  let numKeys ← readLE buf 1 2
  let isLeaf := tag == BNODE_LEAF
  let children ← if isLeaf then some [] else readSeq buf 3 8 8 (numKeys + 1)
  let cursor := if isLeaf then 3 else 3 + (numKeys + 1) * 8
  let offsets ← readSeq buf cursor 2 2 numKeys
  let slots ← readSlots isLeaf buf offsets
  some { keys := slots.map Prod.fst
         children := children
         values := if isLeaf then slots.map Prod.snd else [] }

/-- The page produced by a successful encode (helper for stating
closed round-trip instances). -/
def encPage : EncodeOutcome → Bytes
  | .encoded page => page
  | _ => []

/-! ## Storage configuration (`src/storage/configs.rs`) and the disk
manager (`src/storage/diskmanager.rs`).  The file is a byte list;
offsets are absolute byte positions.  Panics and `unwrap` failures are
`Except.error` carrying the file contents at the moment of the panic,
so "no write happened before the failure" is expressible. -/

/-- `StorageConfig` (`configs.rs`). -/
structure StorageConfig where
  page_size : Nat
  max_key_size : Nat
  max_val_size : Nat
  metadata_offset : Nat
  first_page_offset : Nat
  min_node_size : Nat
deriving DecidableEq

/-- `StorageConfig::default` (`configs.rs` lines 15–26). -/
def defaultConfig : StorageConfig :=
  { page_size := 4096, max_key_size := 1000, max_val_size := 3000,
    metadata_offset := 0, first_page_offset := 4096, min_node_size := 1024 }

/-- The test configuration of `btree.rs` (`get_temp_btree_new_configs`). -/
def testConfig : StorageConfig :=
  { page_size := 32, max_key_size := 16, max_val_size := 16,
    metadata_offset := 0, first_page_offset := 32, min_node_size := 8 }

/-- Write `data` into the file at byte position `pos`, zero-filling any
gap and extending the file as needed: `seek(Start(pos))` followed by
`write_all(data)`. -/
def fileWrite (file : Bytes) (pos : Nat) (data : Bytes) : Bytes :=
  file.take pos ++ List.replicate (pos - file.length) 0 ++ data ++
    file.drop (pos + data.length)

/-- Rust `read_exact` of `n` bytes at position `pos`: `none` models the
`UnexpectedEof` error raised when fewer than `n` bytes remain. -/
def read_exact (file : Bytes) (pos n : Nat) : Option Bytes :=
  if pos + n ≤ file.length then some ((file.drop pos).take n) else none

/-- `DiskManager::read_metadata` (`diskmanager.rs` lines 58–66, same
body as `pager.rs` lines 46–54): read 8 bytes at the metadata offset;
an `UnexpectedEof` yields root offset 0 instead of an error. -/
def read_metadata (cfg : StorageConfig) (file : Bytes) : Nat :=
  match read_exact file cfg.metadata_offset 8 with
  | some buf => leVal buf
  | none => 0

/-- `DiskManager::write_metadata` (`diskmanager.rs` lines 70–77): write
a whole zero-padded page whose first 8 bytes are the root offset.
Assumes `page_size ≥ 8` (both configs used here satisfy it; with a
smaller page the source would panic in `copy_from_slice`). -/
def write_metadata (cfg : StorageConfig) (file : Bytes) (rootOff : Nat) : Bytes :=
  fileWrite file cfg.metadata_offset
    (writeBytes (List.replicate cfg.page_size 0) 0 (u64le rootOff))

/-- `DiskManager::load_node_from_disk` (`diskmanager.rs` lines 80–85):
read exactly one page at `off` and decode it; `none` models both the
read error and a decode panic. -/
def load_node_from_disk (cfg : StorageConfig) (file : Bytes) (off : Nat) : Option Node := do
  let buf ← read_exact file off cfg.page_size
  decode_node buf

/-- `AppendResult` (called `EncodeResult` in `diskmanager.rs`; imported
as `AppendResult` by `btree.rs`). -/
inductive AppendResult where
  | encoded
  | needSplit
deriving DecidableEq

/-- `DiskManager::append_node_to_disk` (`diskmanager.rs` lines 88–100):
try-encode the node with the config sizes; on success write the page at
`off`, on needs-split write nothing; an encode panic aborts with the
file untouched. -/
def append_node_to_disk (cfg : StorageConfig) (file : Bytes) (off : Nat) (node : Node) :
    Except Bytes (Bytes × AppendResult) :=
  match encode_node cfg.page_size cfg.max_key_size cfg.max_val_size node with
  | .encoded page => .ok (fileWrite file off page, .encoded)
  | .needSplit => .ok (file, .needSplit)
  | .panicked => .error file

/-- Modelled from the spec: the encoded size of a node, the cursor
position after the layout of spec §4.1 (tag, key count, child pointers,
offset array, slots).  The function `DiskManager::check_node_needs_merge`
that measures a node against `min_node_size` is called by `btree.rs`
but absent from `src/`; spec §4.2 defines `underfull(node)` as "the
node's encoded size is below `min_node_size`". -/
def encodedSize (node : Node) : Nat :=
  let isLeaf := node.children.isEmpty
  let slots := (List.range node.keys.length).foldl
    (fun acc i =>
      acc + 4 + (node.keys.getD i []).length +
        (if isLeaf then (node.values.getD i []).length else 0)) 0
  3 + (if isLeaf then 0 else 8 * node.children.length) +
    2 * node.keys.length + slots

/-- Modelled from the spec: `DiskManager::check_node_needs_merge`
(absent from `src/`; spec §4.2 `underfull`): the encoded size is below
the configured minimum. -/
def check_node_needs_merge (cfg : StorageConfig) (node : Node) : Bool :=
  encodedSize node < cfg.min_node_size

/-! ## Lexicographic byte comparison and binary search.  Rust compares
`Vec<u8>` lexicographically; `slice::binary_search` returns `Ok(pos)`
on a hit and `Err(pos)` with the insertion position on a miss. -/

/-- Lexicographic comparison of byte strings (the `Ord` instance of
`Vec<u8>`). -/
def byteCompare : Bytes → Bytes → Ordering
  | [], [] => .eq
  | [], _ :: _ => .lt
  | _ :: _, [] => .gt
  | a :: as_, b :: bs =>
    if a < b then .lt else if b < a then .gt else byteCompare as_ bs

/-- Strict lexicographic order on byte strings. -/
def bytesLt (a b : Bytes) : Bool := byteCompare a b == .lt

/-- Loop of `slice::binary_search` on the interval `[left, right)`,
comparing the probed element against the target.  The fuel parameter
only makes the recursion structural; the interval shrinks strictly on
every iteration, so fuel `length + 1` never runs out. -/
def binarySearchGo (xs : List Bytes) (target : Bytes) :
    Nat → Nat → Nat → Except Nat Nat
  | 0, left, _ => .error left
  | fuel + 1, left, right =>
    if left < right then
      let mid := left + (right - left) / 2
      match byteCompare (xs.getD mid []) target with
      | .lt => binarySearchGo xs target fuel (mid + 1) right
      | .gt => binarySearchGo xs target fuel left mid
      | .eq => .ok mid
    else .error left

/-- `slice::binary_search(&target)`: `.ok pos` when `xs[pos] = target`,
`.error pos` with the insertion position otherwise.  Fuel
`xs.length + 1` dominates the iteration count, since the interval
shrinks strictly every step. -/
def binary_search (xs : List Bytes) (target : Bytes) : Except Nat Nat :=
  binarySearchGo xs target (xs.length + 1) 0 xs.length

/-- `result.unwrap_or_else(|pos| pos)` on a binary-search result. -/
def unwrapOrElseId : Except Nat Nat → Nat
  | .ok pos => pos
  | .error pos => pos

/-- Child slot chosen by the insert and delete descent
(`btree.rs` line 86 and line 273):
`node.keys.binary_search(&key).unwrap_or_else(|pos| pos)`. -/
def insertChildSlot (keys : List Bytes) (key : Bytes) : Nat :=
  unwrapOrElseId (binary_search keys key)

/-! ## The B+ tree engine (`src/storage/btree.rs`).  Each operation
threads the file explicitly; `Except.error f` models a panic (a failed
`unwrap`, a failed assert inside an encode, or an explicit `panic!`)
with `f` the file contents at that moment.  Fuel bounds the descent
depth; running out of fuel is also reported as an error carrying the
untouched file. -/

/-- `InsertSplit` (`btree.rs` lines 17–21). -/
structure InsertSplit where
  promoted_key : Bytes
  left_offset : Nat
  right_offset : Nat
deriving DecidableEq

/-- `InsertResult` (`btree.rs` lines 12–15). -/
structure InsertResult where
  new_offset : Option Nat
  splits : Option InsertSplit
deriving DecidableEq

/-- `DeleteMerge` (`btree.rs` lines 28–31); never constructed by the
source. -/
structure DeleteMerge where
  left_offset : Nat
  right_offset : Nat
deriving DecidableEq

/-- `DeleteResult` (`btree.rs` lines 23–26).  The leaf success path of
`delete_recursive` writes a field `merge: false` that does not exist on
this struct; the only well-typed reading is `merges := none`, embedded
so below. -/
structure DeleteResult where
  new_offset : Option Nat
  merges : Option DeleteMerge
deriving DecidableEq

/-- The `BTree` struct's mutable state (`btree.rs` lines 5–10): the
cached decoded root, the committed root offset, and the backing file
(standing for the `DiskManager`'s handle). -/
structure BTreeState where
  root : Node
  root_offset : Nat
  file : Bytes
deriving DecidableEq

/-- Left sibling built by `propagate_leaf_split` (`btree.rs` lines
199–203): keys and values `[0, mid)` with `mid = keys.len() / 2`. -/
def leafSplitLeft (node : Node) : Node :=
  { keys := node.keys.take (node.keys.length / 2)
    children := []
    values := node.values.take (node.keys.length / 2) }

/-- Right sibling built by `propagate_leaf_split` (`btree.rs` lines
206–210): keys and values `[mid, n)`. -/
def leafSplitRight (node : Node) : Node :=
  { keys := node.keys.drop (node.keys.length / 2)
    children := []
    values := node.values.drop (node.keys.length / 2) }

/-- Left sibling built by `propagate_internal_split` (`btree.rs` lines
166–170): keys `[0, mid)` and children `[0, mid]`. -/
def internalSplitLeft (node : Node) : Node :=
  { keys := node.keys.take (node.keys.length / 2)
    children := node.children.take (node.keys.length / 2 + 1)
    values := [] }

/-- Right sibling built by `propagate_internal_split` (`btree.rs` lines
173–177): keys `[mid+1, …)` and children `[mid+1, …)`. -/
def internalSplitRight (node : Node) : Node :=
  { keys := node.keys.drop (node.keys.length / 2 + 1)
    children := node.children.drop (node.keys.length / 2 + 1)
    values := [] }

/-- `BTree::propagate_leaf_split` (`btree.rs` lines 195–226): write the
left sibling at the already-allocated offset (append result discarded
by the source), the right sibling at a fresh offset (likewise
discarded), and promote `keys[mid]` — the right sibling's first key. -/
def propagate_leaf_split (cfg : StorageConfig) (file : Bytes) (node : Node)
    (left_offset : Nat) : Except Bytes (Bytes × InsertResult) := do
  let (file1, _) ← append_node_to_disk cfg file left_offset (leafSplitLeft node)
  let right_offset := file1.length
  let (file2, _) ← append_node_to_disk cfg file1 right_offset (leafSplitRight node)
  match node.keys[node.keys.length / 2]? with
  | none => .error file2
  | some promoted =>
    .ok (file2, { new_offset := none,
                  splits := some { promoted_key := promoted,
                                   left_offset := left_offset,
                                   right_offset := right_offset } })

/-- `BTree::propagate_internal_split` (`btree.rs` lines 160–193): write
the two siblings (append results discarded by the source) and promote
`keys[mid]`, which appears in neither sibling. -/
def propagate_internal_split (cfg : StorageConfig) (file : Bytes) (node : Node)
    (new_offset : Nat) : Except Bytes (Bytes × InsertResult) := do
  let (file1, _) ← append_node_to_disk cfg file new_offset (internalSplitLeft node)
  let right_offset := file1.length
  let (file2, _) ← append_node_to_disk cfg file1 right_offset (internalSplitRight node)
  match node.keys[node.keys.length / 2]? with
  | none => .error file2
  | some promoted =>
    .ok (file2, { new_offset := none,
                  splits := some { promoted_key := promoted,
                                   left_offset := new_offset,
                                   right_offset := right_offset } })

/-- Pure mutation step of `BTree::insert_into_leaf` (`btree.rs` lines
135–144): on a hit overwrite the value, on a miss insert key and value
at the search position. -/
def leafInsert (node : Node) (key value : Bytes) : Node :=
  match binary_search node.keys key with
  | .ok pos => { node with values := node.values.set pos value }
  | .error pos => { node with keys := listInsertAt pos key node.keys
                              values := listInsertAt pos value node.values }

/-- `BTree::insert_into_leaf` (`btree.rs` lines 134–158): mutate the
leaf, allocate a fresh offset (the end of the file), try-append; on
needs-split fall into `propagate_leaf_split`. -/
def insert_into_leaf (cfg : StorageConfig) (file : Bytes) (node : Node)
    (key value : Bytes) : Except Bytes (Bytes × InsertResult) := do
  let node1 := leafInsert node key value
  let new_offset := file.length
  match ← append_node_to_disk cfg file new_offset node1 with
  | (file1, .encoded) => .ok (file1, { new_offset := some new_offset, splits := none })
  | (file1, .needSplit) => propagate_leaf_split cfg file1 node1 new_offset

/-- `BTree::insert_recursive` (`btree.rs` lines 80–132).  On an
internal node the child slot is `insertChildSlot` (equality with a
separator descends into `children[pos]`); a child `Replaced` updates
the slot pointer and rewrites the node at a fresh offset (append result
discarded by the source, line 97); a child `Split` inserts the promoted
key at `pos` and replaces the child pointer by the pair, falling into
`propagate_internal_split` when the rewritten node no longer fits. -/
def insert_recursive (cfg : StorageConfig) :
    Nat → Bytes → Node → Bytes → Bytes → Except Bytes (Bytes × InsertResult)
  | 0, file, _, _, _ => .error file
  | fuel + 1, file, node, key, value =>
    if node.children.isEmpty then insert_into_leaf cfg file node key value
    else
      let pos := insertChildSlot node.keys key
      match node.children[pos]? with
      | none => .error file
      | some child_offset =>
        match load_node_from_disk cfg file child_offset with
        | none => .error file
        | some child => do
          let (file1, result) ← insert_recursive cfg fuel file child key value
          match result.splits with
          | none =>
            match result.new_offset with
            | none => .error file1
            | some newChild => do
              let node1 := { node with children := node.children.set pos newChild }
              let new_internal_offset := file1.length
              let (file2, _) ← append_node_to_disk cfg file1 new_internal_offset node1
              .ok (file2, { new_offset := some new_internal_offset, splits := none })
          | some splits =>
            let node1 := { node with
              keys := listInsertAt pos splits.promoted_key node.keys
              children :=
                listInsertAt (pos + 1) splits.right_offset
                  (listInsertAt pos splits.left_offset
                    (listRemoveAt pos node.children)) }
            let new_offset := file1.length
            match ← append_node_to_disk cfg file1 new_offset node1 with
            | (file2, .encoded) =>
              .ok (file2, { new_offset := some new_offset, splits := none })
            | (file2, .needSplit) => propagate_internal_split cfg file2 node1 new_offset

/-- `BTree::insert` (`btree.rs` lines 49–78): run the recursion on a
clone of the cached root; on `Replaced` commit the new offset to the
metadata page and reload the root; on `Split` build a one-key root over
the two siblings, append it (result discarded by the source, line 73),
commit, and reload. -/
def insertOp (cfg : StorageConfig) (fuel : Nat) (st : BTreeState)
    (key value : Bytes) : Except Bytes BTreeState := do
  let (file, result) ← insert_recursive cfg fuel st.file st.root key value
  match result.splits with
  | none =>
    match result.new_offset with
    | none => .error file
    | some off =>
      let file1 := write_metadata cfg file off
      match load_node_from_disk cfg file1 off with
      | none => .error file1
      | some root => .ok { root := root, root_offset := off, file := file1 }
  | some splits => do
    let new_root : Node :=
      { keys := [splits.promoted_key]
        children := [splits.left_offset, splits.right_offset]
        values := [] }
    let new_root_offset := file.length
    let (file1, _) ← append_node_to_disk cfg file new_root_offset new_root
    let file2 := write_metadata cfg file1 new_root_offset
    match load_node_from_disk cfg file2 new_root_offset with
    | none => .error file2
    | some root => .ok { root := root, root_offset := new_root_offset, file := file2 }

/-- The root-to-leaf descent that `insert_recursive` performs before it
writes anything, as a pure observation: follow `insertChildSlot` and
`load_node_from_disk` from the given node down to the leaf the insert
will mutate (`btree.rs` lines 86–89).  `none` when the descent panics
or runs out of fuel.  No page is read differently and no write happens
in the source before this leaf is reached. -/
def descendLeaf (cfg : StorageConfig) (file : Bytes) (key : Bytes) :
    Nat → Node → Option Node
  | 0, _ => none
  | fuel + 1, node =>
    if node.children.isEmpty then some node
    else
      match node.children[insertChildSlot node.keys key]? with
      | none => none
      | some child_offset =>
        match load_node_from_disk cfg file child_offset with
        | none => none
        | some child => descendLeaf cfg file key fuel child

/-- `BTree::delete_recursive` (`btree.rs` lines 238–278).  At a leaf, a
hit removes the pair; a miss constructs a no-op `DeleteResult` but
discards it (the statement ends in `;`), so control falls through
either way: the node is checked against the minimum size (panic
`needs merge!` when below), appended at a fresh offset, and reported as
the new offset.  At an internal node the child's result is returned
directly, without updating the parent. -/
def delete_recursive (cfg : StorageConfig) :
    Nat → Bytes → Node → Bytes → Except Bytes (Bytes × DeleteResult)
  | 0, file, _, _ => .error file
  | fuel + 1, file, node, key =>
    if node.children.isEmpty then
      let node1 :=
        match binary_search node.keys key with
        | .ok pos => { node with keys := listRemoveAt pos node.keys
                                 values := listRemoveAt pos node.values }
        | .error _ => node
      if !check_node_needs_merge cfg node1 then
        let new_offset := file.length
        match append_node_to_disk cfg file new_offset node1 with
        | .error f => .error f
        | .ok (file1, .encoded) =>
          .ok (file1, { new_offset := some new_offset, merges := none })
        | .ok (file1, .needSplit) => .error file1
      else .error file
    else
      let pos := insertChildSlot node.keys key
      match node.children[pos]? with
      | none => .error file
      | some child_offset =>
        match load_node_from_disk cfg file child_offset with
        | none => .error file
        | some child => delete_recursive cfg fuel file child key

/-- `BTree::delete` (`btree.rs` lines 228–236): run the recursion on a
clone of the cached root, commit the returned offset to the metadata
page, and reload the root. -/
def deleteOp (cfg : StorageConfig) (fuel : Nat) (st : BTreeState)
    (key : Bytes) : Except Bytes BTreeState := do
  let (file, result) ← delete_recursive cfg fuel st.file st.root key
  match result.new_offset with
  | none => .error file
  | some off =>
    let file1 := write_metadata cfg file off
    match load_node_from_disk cfg file1 off with
    | none => .error file1
    | some root => .ok { root := root, root_offset := off, file := file1 }

/-- `DiskManager::new` on a missing or empty file followed by
`BTree::new` (`diskmanager.rs` lines 21–53, `btree.rs` lines 34–47):
write the metadata page pointing at `first_page_offset`, append an
empty leaf there (append result discarded by the source, line 49), then
read the metadata back and load the root. -/
def freshStore (cfg : StorageConfig) : Except Bytes BTreeState := do
  let file0 := write_metadata cfg [] cfg.first_page_offset
  let emptyRoot : Node := { keys := [], children := [], values := [] }
  let (file1, _) ← append_node_to_disk cfg file0 cfg.first_page_offset emptyRoot
  let root_offset := read_metadata cfg file1
  match load_node_from_disk cfg file1 root_offset with
  | none => .error file1
  | some root => .ok { root := root, root_offset := root_offset, file := file1 }

/-! ## Observation helpers (not part of the source): in-order traversal
of the committed tree, and projections out of `Except` results. -/

/-- In-order key/value entries of the trees rooted at a list of page
offsets: a leaf contributes `keys.zip values`; an internal node
contributes the concatenation over its children (internal separator
keys are routing copies and are not emitted, per spec §8 sortedness and
the `right.keys[0]` promotion convention).  Fuel bounds the depth. -/
def traverseMany (cfg : StorageConfig) (file : Bytes) :
    Nat → List Nat → Option (List (Bytes × Bytes))
  | 0, _ => none
  | _ + 1, [] => some []
  | fuel + 1, off :: rest => do
    let node ← load_node_from_disk cfg file off
    let here ←
      if node.children.isEmpty then some (node.keys.zip node.values)
      else traverseMany cfg file fuel node.children
    let there ← traverseMany cfg file fuel rest
    some (here ++ there)

/-- In-order entries of a store's committed tree. -/
def entriesOf (cfg : StorageConfig) (fuel : Nat) (st : BTreeState) :
    Option (List (Bytes × Bytes)) :=
  traverseMany cfg st.file fuel [st.root_offset]

/-- In-order keys of a store's committed tree. -/
def keysOf (cfg : StorageConfig) (fuel : Nat) (st : BTreeState) :
    Option (List Bytes) :=
  (entriesOf cfg fuel st).map (List.map Prod.fst)

/-- Strict ascending order under the lexicographic byte order. -/
def strictAscending : List Bytes → Bool
  | [] => true
  | [_] => true
  | a :: b :: rest => bytesLt a b && strictAscending (b :: rest)

/-- The state of a successful run, or a dummy state after a panic. -/
def okOr : Except Bytes BTreeState → BTreeState
  | .ok st => st
  | .error _ => { root := { keys := [], children := [], values := [] },
                  root_offset := 0, file := [] }

/-- The file carried by a failed run (the file of the state otherwise). -/
def errFile : Except Bytes BTreeState → Bytes
  | .error f => f
  | .ok st => st.file

/-- Whether a run succeeded. -/
def isOkRun : Except Bytes BTreeState → Bool
  | .ok _ => true
  | .error _ => false

/-! ## Concrete stores under the test configuration, used by the
counterexamples and code-evaluation theorems below.  All are built by
running the embedded operations themselves. -/

/-- Bytes of the string `alpha`. -/
def alphaB : Bytes := [97, 108, 112, 104, 97]

/-- Bytes of the string `beta`. -/
def betaB : Bytes := [98, 101, 116, 97]

/-- Bytes of the string `charlie`. -/
def charlieB : Bytes := [99, 104, 97, 114, 108, 105, 101]

/-- Bytes of the string `1`. -/
def oneB : Bytes := [49]

/-- Bytes of the string `2`. -/
def twoB : Bytes := [50]

/-- A fresh store under the test configuration. -/
def storeFresh : BTreeState := okOr (freshStore testConfig)

/-- Fresh store after inserting the single pair `("a", "1")`. -/
def storeA : BTreeState := okOr (insertOp testConfig 10 storeFresh [97] oneB)

/-- Fresh store after inserting `alpha`, `beta`, `charlie` (in this
order), each with value `"1"`: the two-level tree of the source's
`test_root_node_split_sorted`. -/
def storeABC : BTreeState :=
  okOr (do
    let s1 ← insertOp testConfig 10 storeFresh alphaB oneB
    let s2 ← insertOp testConfig 10 s1 betaB oneB
    insertOp testConfig 10 s2 charlieB oneB)

/-- `storeABC` after inserting `("beta", "2")` again: the insert
descends into the left child although `beta` lives in the right one. -/
def storeABCB : BTreeState :=
  okOr (insertOp testConfig 10 storeABC betaB twoB)

/-- Fresh store after `alpha`, `charlie`, then `("beta", "1")`: the
third insert splits the leaf and promotes `beta` itself to the new
root. -/
def storeACB : BTreeState :=
  okOr (do
    let s1 ← insertOp testConfig 10 storeFresh alphaB oneB
    let s2 ← insertOp testConfig 10 s1 charlieB oneB
    insertOp testConfig 10 s2 betaB oneB)

/-- `storeACB` after inserting `("beta", "2")`: the update descends
into the left child, which does not contain `beta`, and adds a fourth
key instead of overwriting. -/
def storeACBB : BTreeState :=
  okOr (insertOp testConfig 10 storeACB betaB twoB)

/-- A 16-byte key at the test configuration's key-size limit. -/
def bigKeyB : Bytes := List.replicate 16 107

/-- A 7-byte value; together with `bigKeyB` the single-pair leaf fills
its 32-byte page exactly. -/
def bigValB : Bytes := List.replicate 7 118

/-- Fresh store holding only `(bigKeyB, bigValB)` — an exactly-full
committed leaf. -/
def storeBig : BTreeState := okOr (insertOp testConfig 10 storeFresh bigKeyB bigValB)

/-- A 17-byte key, one byte over the test configuration's
`max_key_size`; it sorts after `bigKeyB`. -/
def oversizedKeyB : Bytes := List.replicate 17 122

/-- Slot offsets assigned by `encodeSlots` when every pair is written:
the cursor before each slot, advancing by the slot's size. -/
def slotOffsets (c : Nat) : List (Bytes × Bytes) → List Nat
  | [] => []
  | (key, val) :: rest => c :: slotOffsets (c + 4 + key.length + val.length) rest

/-- Statement of the leaf-split claim (spec §4.3) for a post-insertion
leaf with `n` keys and `m = n / 2`: the left sibling holds exactly the
entries at positions `[0, m)`, the right sibling those at `[m, n)`, and
the promoted separator is the right sibling's first key, hence still
present in the right leaf. -/
def LeafSplitSpec (node : Node) (promoted : Bytes) : Prop :=
  (leafSplitLeft node).keys.length = node.keys.length / 2 ∧
  (leafSplitLeft node).values.length = node.keys.length / 2 ∧
  (∀ i, i < node.keys.length / 2 →
    (leafSplitLeft node).keys[i]? = node.keys[i]? ∧
    (leafSplitLeft node).values[i]? = node.values[i]?) ∧
  (leafSplitRight node).keys.length = node.keys.length - node.keys.length / 2 ∧
  (∀ i, (leafSplitRight node).keys[i]? = node.keys[node.keys.length / 2 + i]? ∧
    (leafSplitRight node).values[i]? = node.values[node.keys.length / 2 + i]?) ∧
  (leafSplitRight node).keys[0]? = some promoted ∧
  promoted ∈ (leafSplitRight node).keys

/-- Statement of the internal-split claim (spec §4.3) for an internal
node with `m = keys / 2`: the left sibling holds keys `[0, m)` and
children `[0, m]`, the right sibling keys `[m+1, …)` and children
`[m+1, …)`, and the promoted key `keys[m]` is retained in neither
sibling. -/
def InternalSplitSpec (node : Node) (promoted : Bytes) : Prop :=
  (internalSplitLeft node).keys.length = node.keys.length / 2 ∧
  (∀ i, i < node.keys.length / 2 →
    (internalSplitLeft node).keys[i]? = node.keys[i]?) ∧
  (internalSplitLeft node).children.length = node.keys.length / 2 + 1 ∧
  (∀ i, i < node.keys.length / 2 + 1 →
    (internalSplitLeft node).children[i]? = node.children[i]?) ∧
  (internalSplitRight node).keys.length =
    node.keys.length - (node.keys.length / 2 + 1) ∧
  (∀ i, (internalSplitRight node).keys[i]? =
    node.keys[node.keys.length / 2 + 1 + i]?) ∧
  (internalSplitRight node).children.length =
    node.children.length - (node.keys.length / 2 + 1) ∧
  (∀ i, (internalSplitRight node).children[i]? =
    node.children[node.keys.length / 2 + 1 + i]?) ∧
  node.keys[node.keys.length / 2]? = some promoted ∧
  promoted ∉ (internalSplitLeft node).keys ∧
  promoted ∉ (internalSplitRight node).keys

/-! ## Buffer lemmas -/

theorem writeBytes_length {buf data : Bytes} {pos : Nat}
    (h : pos + data.length ≤ buf.length) :
    (writeBytes buf pos data).length = buf.length := by
  simp only [writeBytes, List.length_append, List.length_take, List.length_drop]
  omega

theorem writeBytes_getElem_lt {buf data : Bytes} {pos j : Nat}
    (hj : j < pos) (hp : pos ≤ buf.length) :
    (writeBytes buf pos data)[j]? = buf[j]? := by
  have h1 : j < (buf.take pos).length := by
    simp only [List.length_take]; omega
  simp only [writeBytes, List.append_assoc]
  rw [List.getElem?_append_left h1, List.getElem?_take_of_lt hj]

theorem writeBytes_getElem_ge {buf data : Bytes} {pos j : Nat}
    (hj : pos + data.length ≤ j) (hp : pos ≤ buf.length) :
    (writeBytes buf pos data)[j]? = buf[j]? := by
  have hlen1 : (buf.take pos).length = pos := by
    simp only [List.length_take]; omega
  have h1 : (buf.take pos).length ≤ j := by omega
  simp only [writeBytes, List.append_assoc]
  rw [List.getElem?_append_right h1, hlen1]
  have h2 : data.length ≤ j - pos := by omega
  rw [List.getElem?_append_right h2, List.getElem?_drop]
  congr 1
  omega

theorem writeBytes_getElem_mid {buf data : Bytes} {pos k : Nat}
    (hk : k < data.length) (hp : pos ≤ buf.length) :
    (writeBytes buf pos data)[pos + k]? = data[k]? := by
  have hlen1 : (buf.take pos).length = pos := by
    simp only [List.length_take]; omega
  have h1 : (buf.take pos).length ≤ pos + k := by omega
  simp only [writeBytes, List.append_assoc]
  rw [List.getElem?_append_right h1, hlen1]
  have h2 : pos + k - pos = k := by omega
  rw [h2, List.getElem?_append_left hk]

/-! ## Slice and little-endian read lemmas -/

theorem byteSlice_eq_some {buf : Bytes} {a b : Nat} (ha : a ≤ b)
    (hb : b ≤ buf.length) :
    byteSlice buf a b = some ((buf.drop a).take (b - a)) := by
  simp [byteSlice, ha, hb]

theorem byteSlice_length {buf l : Bytes} {a b : Nat}
    (h : byteSlice buf a b = some l) : l.length = b - a ∧ a ≤ b ∧ b ≤ buf.length := by
  by_cases hc : a ≤ b ∧ b ≤ buf.length
  · simp only [byteSlice, hc, and_self, if_true, Option.some.injEq] at h
    subst h
    simp only [List.length_take, List.length_drop]
    omega
  · simp [byteSlice, hc] at h

theorem byteSlice_getElem {buf l : Bytes} {a b : Nat}
    (h : byteSlice buf a b = some l) (k : Nat) (hk : k < b - a) :
    l[k]? = buf[a + k]? := by
  obtain ⟨hlen, hab, hb⟩ := byteSlice_length h
  by_cases hc : a ≤ b ∧ b ≤ buf.length
  · simp only [byteSlice, hc, and_self, if_true, Option.some.injEq] at h
    subst h
    rw [List.getElem?_take_of_lt hk, List.getElem?_drop]
  · exact absurd ⟨hab, hb⟩ hc

theorem byteSlice_congr {buf buf' l : Bytes} {a b : Nat}
    (h : byteSlice buf a b = some l) (hlen : buf'.length = buf.length)
    (hag : ∀ j, a ≤ j → j < b → buf'[j]? = buf[j]?) :
    byteSlice buf' a b = some l := by
  obtain ⟨hl, hab, hb⟩ := byteSlice_length h
  have hb' : b ≤ buf'.length := by omega
  rw [byteSlice_eq_some hab hb']
  congr 1
  apply List.ext_getElem?
  intro k
  by_cases hk : k < b - a
  · have h1 : ((buf'.drop a).take (b - a))[k]? = buf'[a + k]? := by
      rw [List.getElem?_take_of_lt hk, List.getElem?_drop]
    rw [h1, hag (a + k) (by omega) (by omega), ← byteSlice_getElem h k hk]
  · have h1 : ((buf'.drop a).take (b - a)).length ≤ k := by
      simp only [List.length_take, List.length_drop]; omega
    have h2 : l.length ≤ k := by omega
    rw [List.getElem?_eq_none h1, List.getElem?_eq_none h2]

theorem readLE_congr {buf buf' : Bytes} {pos n v : Nat}
    (h : readLE buf pos n = some v) (hlen : buf'.length = buf.length)
    (hag : ∀ j, pos ≤ j → j < pos + n → buf'[j]? = buf[j]?) :
    readLE buf' pos n = some v := by
  simp only [readLE, Option.map_eq_some'] at h ⊢
  obtain ⟨l, hsl, hval⟩ := h
  exact ⟨l, byteSlice_congr hsl hlen hag, hval⟩

theorem readLE_writeBytes {buf data : Bytes} {pos : Nat}
    (h : pos + data.length ≤ buf.length) :
    readLE (writeBytes buf pos data) pos data.length = some (leVal data) := by
  have hlen := writeBytes_length h
  have hsl : byteSlice (writeBytes buf pos data) pos (pos + data.length) =
      some data := by
    rw [byteSlice_eq_some (by omega) (by omega)]
    congr 1
    apply List.ext_getElem?
    intro k
    by_cases hk : k < data.length
    · have h1 : (((writeBytes buf pos data).drop pos).take (pos + data.length - pos))[k]? =
          (writeBytes buf pos data)[pos + k]? := by
        rw [List.getElem?_take_of_lt (by omega), List.getElem?_drop]
      rw [h1, writeBytes_getElem_mid hk (by omega)]
    · have h1 : (((writeBytes buf pos data).drop pos).take (pos + data.length - pos)).length ≤ k := by
        simp only [List.length_take, List.length_drop]; omega
      rw [List.getElem?_eq_none h1, List.getElem?_eq_none (by omega)]
  simp [readLE, hsl]

theorem leVal_leBytes (k n : Nat) : leVal (leBytes k n) = n % 256 ^ k := by
  induction k generalizing n with
  | zero => simp [leBytes, leVal, Nat.mod_one]
  | succ m ih =>
    have hM : 0 < 256 ^ m := Nat.pos_pow_of_pos m (by omega)
    have hqm : n / 256 % 256 ^ m < 256 ^ m := Nat.mod_lt _ hM
    have hr : n % 256 < 256 := Nat.mod_lt _ (by omega)
    simp only [leBytes, leVal, ih]
    have h1 : (256 : Nat) ^ (m + 1) = 256 * 256 ^ m := by ring
    have hc : 256 * 256 ^ m * (n / 256 / 256 ^ m) =
        256 * (256 ^ m * (n / 256 / 256 ^ m)) := by ring
    have h2 : n = 256 * 256 ^ m * (n / 256 / 256 ^ m) +
        (256 * (n / 256 % 256 ^ m) + n % 256) := by
      have ha := Nat.div_add_mod n 256
      have hb := Nat.div_add_mod (n / 256) (256 ^ m)
      omega
    rw [h1]
    conv_rhs => rw [h2]
    have hlt : 256 * (n / 256 % 256 ^ m) + n % 256 < 256 * 256 ^ m := by omega
    rw [Nat.mul_add_mod, Nat.mod_eq_of_lt hlt]
    omega

theorem leVal_u16le (n : Nat) : leVal (u16le n) = n % 65536 := by
  have h := leVal_leBytes 2 n
  norm_num [u16le] at h ⊢
  exact h

theorem leVal_u64le (n : Nat) : leVal (u64le n) = n % 2 ^ 64 := by
  have h := leVal_leBytes 8 n
  have h2 : (256 : Nat) ^ 8 = 2 ^ 64 := by norm_num
  rw [u64le, h, h2]

theorem length_u16le (n : Nat) : (u16le n).length = 2 := rfl

theorem length_u64le (n : Nat) : (u64le n).length = 8 := rfl

/-! ## Intro lemmas for the decode loops -/

theorem readSeq_intro {buf : Bytes} {step width : Nat} :
    ∀ (n start : Nat) (l : List Nat), l.length = n →
      (∀ k, k < n → readLE buf (start + step * k) width = some (l.getD k 0)) →
      readSeq buf start step width n = some l := by
  intro n
  induction n with
  | zero =>
    intro start l hl _
    cases l with
    | nil => rfl
    | cons a l => simp at hl
  | succ m ih =>
    intro start l hl hread
    cases l with
    | nil => simp at hl
    | cons a l =>
      have h0 := hread 0 (by omega)
      simp only [Nat.mul_zero, Nat.add_zero, List.getD_cons_zero] at h0
      have hrest : readSeq buf (start + step) step width m = some l := by
        apply ih (start + step) l (by simpa using hl)
        intro k hk
        have hk1 := hread (k + 1) (by omega)
        have harith : start + step * (k + 1) = start + step + step * k := by ring
        rw [harith] at hk1
        simpa using hk1
      simp [readSeq, h0, hrest]

theorem readSlots_intro {isLeaf : Bool} {buf : Bytes} :
    ∀ (offs : List Nat) (ps : List (Bytes × Bytes)), offs.length = ps.length →
      (∀ k, k < offs.length →
        readSlot isLeaf buf (offs.getD k 0) = some (ps.getD k ([], []))) →
      readSlots isLeaf buf offs = some ps := by
  intro offs
  induction offs with
  | nil =>
    intro ps hl _
    cases ps with
    | nil => rfl
    | cons p ps => simp at hl
  | cons o offs ih =>
    intro ps hl hread
    cases ps with
    | nil => simp at hl
    | cons p ps =>
      have h0 := hread 0 (by simp)
      simp only [List.getD_cons_zero] at h0
      have hrest : readSlots isLeaf buf offs = some ps := by
        apply ih ps (by simpa using hl)
        intro k hk
        have hk1 := hread (k + 1) (by simp; omega)
        simpa using hk1
      simp [readSlots, h0, hrest]

theorem length_slotOffsets (c : Nat) (ps : List (Bytes × Bytes)) :
    (slotOffsets c ps).length = ps.length := by
  induction ps generalizing c with
  | nil => rfl
  | cons p rest ih =>
    cases p with
    | mk k v => simp [slotOffsets, ih]

theorem byteSlice_writeBytes {buf data : Bytes} {pos : Nat}
    (h : pos + data.length ≤ buf.length) :
    byteSlice (writeBytes buf pos data) pos (pos + data.length) = some data := by
  have hlen := writeBytes_length h
  rw [byteSlice_eq_some (by omega) (by omega)]
  congr 1
  apply List.ext_getElem?
  intro k
  by_cases hk : k < data.length
  · have h1 : (((writeBytes buf pos data).drop pos).take (pos + data.length - pos))[k]? =
        (writeBytes buf pos data)[pos + k]? := by
      rw [List.getElem?_take_of_lt (by omega), List.getElem?_drop]
    rw [h1, writeBytes_getElem_mid hk (by omega)]
  · have h1 : (((writeBytes buf pos data).drop pos).take (pos + data.length - pos)).length ≤ k := by
      simp only [List.length_take, List.length_drop]; omega
    rw [List.getElem?_eq_none h1, List.getElem?_eq_none (by omega)]

theorem readSlot_intro {isLeaf : Bool} {buf key val : Bytes} {off kl vl : Nat}
    (hkl : readLE buf off 2 = some kl)
    (hvl : readLE buf (off + 2) 2 = some vl)
    (hkey : byteSlice buf (off + 4) (off + 4 + kl) = some key)
    (hval : byteSlice buf (off + 4 + kl) (off + 4 + kl + vl) = some val) :
    readSlot isLeaf buf off = some (key, if isLeaf then val else []) := by
  cases isLeaf <;> simp [readSlot, hkl, hvl, hkey, hval]

theorem encodeSlots_spec {maxK maxV P osStart : Nat} (isLeaf : Bool) (hP : P ≤ 65536) :
    ∀ (rest : List (Bytes × Bytes)) (i : Nat) (buf out : Bytes) (cursor : Nat),
      buf.length = P →
      osStart + 2 * (i + rest.length) ≤ cursor →
      encodeSlots maxK maxV P osStart rest i buf cursor = .encoded out →
      out.length = P ∧
      (∀ j, j < osStart + 2 * i → out[j]? = buf[j]?) ∧
      (∀ j, osStart + 2 * (i + rest.length) ≤ j → j < cursor → out[j]? = buf[j]?) ∧
      (∀ k, k < rest.length →
        readLE out (osStart + 2 * (i + k)) 2 =
          some ((slotOffsets cursor rest).getD k 0) ∧
        readSlot isLeaf out ((slotOffsets cursor rest).getD k 0) =
          some ((rest.getD k ([], [])).1,
            if isLeaf then (rest.getD k ([], [])).2 else [])) := by
  intro rest
  induction rest with
  | nil =>
    intro i buf out cursor hbuf hos henc
    simp only [encodeSlots, EncodeOutcome.encoded.injEq] at henc
    subst henc
    refine ⟨hbuf, fun j _ => rfl, fun j _ _ => rfl, fun k hk => by simp at hk⟩
  | cons p rest' ih =>
    obtain ⟨key, val⟩ := p
    intro i buf out cursor hbuf hos henc
    simp only [List.length_cons] at hos ⊢
    simp only [encodeSlots] at henc
    split at henc
    · exact absurd henc (by simp)
    split at henc
    · exact absurd henc (by simp)
    split at henc
    · exact absurd henc (by simp)
    split at henc
    · exact absurd henc (by simp)
    split at henc
    · exact absurd henc (by simp)
    split at henc
    · exact absurd henc (by simp)
    rename_i hg1 hg2 hg3 hg4 hg5 hg6
    have hkeq : key.length % 65536 = key.length := by omega
    have hveq : val.length % 65536 = val.length := by omega
    rw [hkeq] at henc hg4 hg6
    rw [hveq] at henc hg6
    have hcur2 : osStart + 2 * i + 2 ≤ cursor := by omega
    have hfit : cursor + 4 + key.length + val.length ≤ P := by omega
    set b1 := writeBytes buf (osStart + 2 * i) (u16le cursor) with hb1def
    set b2 := writeBytes b1 cursor (u16le key.length) with hb2def
    set b3 := writeBytes b2 (cursor + 2) (u16le val.length) with hb3def
    set b4 := writeBytes b3 (cursor + 4) key with hb4def
    set b5 := writeBytes b4 (cursor + 4 + key.length) val with hb5def
    have hlen1 : b1.length = P := by
      rw [hb1def, writeBytes_length (by simp only [length_u16le]; omega), hbuf]
    have hlen2 : b2.length = P := by
      rw [hb2def, writeBytes_length (by simp only [length_u16le]; omega)]
      exact hlen1
    have hlen3 : b3.length = P := by
      rw [hb3def, writeBytes_length (by simp only [length_u16le]; omega)]
      exact hlen2
    have hlen4 : b4.length = P := by
      rw [hb4def, writeBytes_length (by omega)]
      exact hlen3
    have hlen5 : b5.length = P := by
      rw [hb5def, writeBytes_length (by omega)]
      exact hlen4
    have ihres := ih (i + 1) b5 out (cursor + 4 + key.length + val.length)
      hlen5 (by omega) henc
    obtain ⟨holen, hlow, hhigh, hslots⟩ := ihres
    have hb5low : ∀ j, j < cursor → j < osStart + 2 * i ∨ osStart + 2 * i + 2 ≤ j →
        b5[j]? = buf[j]? := by
      intro j hj hcase
      rw [hb5def, writeBytes_getElem_lt (by omega) (by omega),
          hb4def, writeBytes_getElem_lt (by omega) (by omega),
          hb3def, writeBytes_getElem_lt (by omega) (by omega),
          hb2def, writeBytes_getElem_lt (by omega) (by omega)]
      rcases hcase with hlt | hge
      · rw [hb1def, writeBytes_getElem_lt hlt (by simp only [hbuf]; omega)]
      · rw [hb1def,
          writeBytes_getElem_ge (by simp only [length_u16le]; omega)
            (by simp only [hbuf]; omega)]
    refine ⟨holen, ?_, ?_, ?_⟩
    · intro j hj
      have h1 : out[j]? = b5[j]? := hlow j (by omega)
      rw [h1, hb5low j (by omega) (Or.inl hj)]
    · intro j hj1 hj2
      have h1 : out[j]? = b5[j]? := hhigh j (by omega) (by omega)
      rw [h1, hb5low j (by omega) (Or.inr (by omega))]
    · intro k hk
      match k with
      | 0 =>
        simp only [slotOffsets, List.getD_cons_zero, Nat.add_zero, List.getD_cons_zero]
        constructor
        · have hwrite : readLE b1 (osStart + 2 * i) 2 = some (leVal (u16le cursor)) := by
            have h := @readLE_writeBytes buf (u16le cursor) (osStart + 2 * i)
              (by simp only [length_u16le]; omega)
            simpa only [length_u16le, hb1def] using h
          have hv : leVal (u16le cursor) = cursor := by
            rw [leVal_u16le]; omega
          rw [hv] at hwrite
          have hb5r : readLE b5 (osStart + 2 * i) 2 = some cursor := by
            apply readLE_congr hwrite (by omega)
            intro j hj1 hj2
            rw [hb5def, writeBytes_getElem_lt (by omega) (by omega),
                hb4def, writeBytes_getElem_lt (by omega) (by omega),
                hb3def, writeBytes_getElem_lt (by omega) (by omega),
                hb2def, writeBytes_getElem_lt (by omega) (by omega)]
          apply readLE_congr hb5r (by omega)
          intro j hj1 hj2
          exact hlow j (by omega)
        · have hagree : ∀ j, cursor ≤ j → j < cursor + 4 + key.length + val.length →
              out[j]? = b5[j]? := by
            intro j hj1 hj2
            exact hhigh j (by omega) (by omega)
          have hkl5 : readLE b5 cursor 2 = some key.length := by
            have h := @readLE_writeBytes b1 (u16le key.length) cursor
              (by simp only [length_u16le]; omega)
            rw [length_u16le] at h
            have hv : leVal (u16le key.length) = key.length := by
              rw [leVal_u16le]; omega
            rw [hv, ← hb2def] at h
            apply readLE_congr h (by omega)
            intro j hj1 hj2
            rw [hb5def, writeBytes_getElem_lt (by omega) (by omega),
                hb4def, writeBytes_getElem_lt (by omega) (by omega),
                hb3def, writeBytes_getElem_lt (by omega) (by omega)]
          have hvl5 : readLE b5 (cursor + 2) 2 = some val.length := by
            have h := @readLE_writeBytes b2 (u16le val.length) (cursor + 2)
              (by simp only [length_u16le]; omega)
            rw [length_u16le] at h
            have hv : leVal (u16le val.length) = val.length := by
              rw [leVal_u16le]; omega
            rw [hv, ← hb3def] at h
            apply readLE_congr h (by omega)
            intro j hj1 hj2
            rw [hb5def, writeBytes_getElem_lt (by omega) (by omega),
                hb4def, writeBytes_getElem_lt (by omega) (by omega)]
          have hkey5 : byteSlice b5 (cursor + 4) (cursor + 4 + key.length) = some key := by
            have h := @byteSlice_writeBytes b3 key (cursor + 4) (by omega)
            rw [← hb4def] at h
            apply byteSlice_congr h (by omega)
            intro j hj1 hj2
            rw [hb5def, writeBytes_getElem_lt (by omega) (by omega)]
          have hval5 : byteSlice b5 (cursor + 4 + key.length)
              (cursor + 4 + key.length + val.length) = some val := by
            have h := @byteSlice_writeBytes b4 val (cursor + 4 + key.length)
              (by omega)
            rw [← hb5def] at h
            exact h
          have hklo := readLE_congr hkl5 (by omega)
            (fun j hj1 hj2 => hagree j (by omega) (by omega))
          have hvlo := readLE_congr hvl5 (by omega)
            (fun j hj1 hj2 => hagree j (by omega) (by omega))
          have hkeyo := byteSlice_congr hkey5 (by omega)
            (fun j hj1 hj2 => hagree j (by omega) (by omega))
          have hvalo := byteSlice_congr hval5 (by omega)
            (fun j hj1 hj2 => hagree j (by omega) (by omega))
          exact readSlot_intro hklo hvlo hkeyo hvalo
      | k' + 1 =>
        simp only [slotOffsets, List.getD_cons_succ]
        have hres := hslots k' (by simpa using hk)
        have harith : osStart + 2 * (i + (k' + 1)) = osStart + 2 * (i + 1 + k') := by ring
        rw [harith]
        exact hres

theorem writeChildren_spec :
    ∀ (cs : List Nat) (pos : Nat) (buf : Bytes),
      pos + 8 * cs.length ≤ buf.length →
      (writeChildren buf pos cs).length = buf.length ∧
      (∀ j, j < pos → (writeChildren buf pos cs)[j]? = buf[j]?) ∧
      (∀ j, pos + 8 * cs.length ≤ j → (writeChildren buf pos cs)[j]? = buf[j]?) ∧
      (∀ k, k < cs.length →
        readLE (writeChildren buf pos cs) (pos + 8 * k) 8 =
          some (leVal (u64le (cs.getD k 0)))) := by
  intro cs
  induction cs with
  | nil =>
    intro pos buf _
    exact ⟨rfl, fun j _ => rfl, fun j _ => rfl, fun k hk => by simp at hk⟩
  | cons c cs ih =>
    intro pos buf hfit
    simp only [List.length_cons] at hfit
    have hw : (writeBytes buf pos (u64le c)).length = buf.length :=
      writeBytes_length (by simp only [length_u64le]; omega)
    have ihres := ih (pos + 8) (writeBytes buf pos (u64le c)) (by omega)
    obtain ⟨hlen, hlow, hhigh, hreads⟩ := ihres
    simp only [writeChildren, List.length_cons]
    refine ⟨by rw [hlen, hw], ?_, ?_, ?_⟩
    · intro j hj
      rw [hlow j (by omega), writeBytes_getElem_lt hj (by omega)]
    · intro j hj
      rw [hhigh j (by omega),
        writeBytes_getElem_ge (by simp only [length_u64le]; omega) (by omega)]
    · intro k hk
      match k with
      | 0 =>
        have h := @readLE_writeBytes buf (u64le c) pos
          (by simp only [length_u64le]; omega)
        rw [length_u64le] at h
        have hres := readLE_congr h (by rw [hlen])
          (fun j hj1 hj2 => hlow j (by omega))
        simpa using hres
      | k' + 1 =>
        have h := hreads k' (by simpa using hk)
        have harith : pos + 8 * (k' + 1) = pos + 8 + 8 * k' := by ring
        rw [harith]
        simpa using h

theorem encodeSlots_success_bound {maxK maxV P osStart : Nat} :
    ∀ (rest : List (Bytes × Bytes)) (i : Nat) (buf out : Bytes) (cursor : Nat),
      encodeSlots maxK maxV P osStart rest i buf cursor = .encoded out →
      rest = [] ∨ cursor + 4 * rest.length ≤ P := by
  intro rest
  induction rest with
  | nil => exact fun _ _ _ _ _ => Or.inl rfl
  | cons p rest' ih =>
    obtain ⟨key, val⟩ := p
    intro i buf out cursor henc
    simp only [encodeSlots] at henc
    split at henc
    · exact absurd henc (by simp)
    split at henc
    · exact absurd henc (by simp)
    split at henc
    · exact absurd henc (by simp)
    split at henc
    · exact absurd henc (by simp)
    split at henc
    · exact absurd henc (by simp)
    split at henc
    · exact absurd henc (by simp)
    rename_i hg1 hg2 hg3 hg4 hg5 hg6
    right
    simp only [List.length_cons]
    rcases ih _ _ _ _ henc with hnil | hbound
    · subst hnil
      simp only [List.length_nil]
      omega
    · omega

theorem decode_encode {P maxK maxV : Nat} (hP3 : 3 ≤ P) (hP : P ≤ 65536)
    (node : Node) (page : Bytes)
    (hshape : (node.children = [] ∧ node.values.length = node.keys.length) ∨
              (node.children.length = node.keys.length + 1 ∧ node.values = []))
    (hchild : ∀ c ∈ node.children, c < 2 ^ 64)
    (henc : encode_node P maxK maxV node = .encoded page) :
    decode_node page = some node := by
  obtain ⟨keys, children, values⟩ := node
  simp only at hshape hchild
  rcases hshape with ⟨hch, hval⟩ | ⟨hch, hval⟩
  · -- leaf case
    subst hch
    simp only [encode_node, List.isEmpty_nil, if_true, mkPairs] at henc
    rw [if_neg (by omega : ¬ P < 3)] at henc
    simp only [BNODE_LEAF, BNODE_INTERNAL] at henc
    rw [if_neg (by omega : ¬ (1 : Nat) = 0)] at henc
    rw [if_pos (by omega : keys.length ≤ values.length)] at henc
    simp only at henc
    have hzlen : (keys.zip values).length = keys.length := by
      simp only [List.length_zip]
      omega
    have hnum : keys.length % 65536 = keys.length := by
      rcases Nat.eq_zero_or_pos keys.length with h0 | hpos
      · simp [h0]
      · rcases encodeSlots_success_bound _ _ _ _ _ henc with hnil | hbound
        · rw [hnil] at hzlen
          simp at hzlen
          omega
        · rw [hzlen] at hbound
          omega
    rw [hnum] at henc
    have hb1 : (writeBytes (List.replicate P 0) 0 [1]).length = P := by
      rw [writeBytes_length (by simp; omega)]
      simp
    have hb2 : (writeBytes (writeBytes (List.replicate P 0) 0 [1]) 1
        (u16le keys.length)).length = P := by
      rw [writeBytes_length (by simp only [length_u16le]; omega)]
      exact hb1
    have hspec := @encodeSlots_spec maxK maxV P 3 true hP (keys.zip values) 0 _ page
      (3 + 2 * keys.length) hb2 (by omega) henc
    obtain ⟨hplen, hlowA, hhighA, hslotsA⟩ := hspec
    rw [hzlen] at hhighA hslotsA
    have htag : page[0]? = some 1 := by
      rw [hlowA 0 (by omega),
        writeBytes_getElem_lt (by omega) (by rw [hb1]; omega)]
      have h := @writeBytes_getElem_mid (List.replicate P 0) [1] 0 0
        (by simp) (by simp)
      simpa using h
    have hnumread : readLE page 1 2 = some keys.length := by
      have h := @readLE_writeBytes (writeBytes (List.replicate P 0) 0 [1])
        (u16le keys.length) 1 (by simp only [length_u16le]; omega)
      rw [length_u16le] at h
      have hv : leVal (u16le keys.length) = keys.length := by
        rw [leVal_u16le, hnum]
      rw [hv] at h
      apply readLE_congr h (by omega)
      intro j hj1 hj2
      exact hlowA j (by omega)
    have hoffread : readSeq page 3 2 2 keys.length =
        some (slotOffsets (3 + 2 * keys.length) (keys.zip values)) := by
      apply readSeq_intro keys.length 3 _ (by rw [length_slotOffsets, hzlen])
      intro k hk
      have h := (hslotsA k (by omega)).1
      simpa using h
    have hslotread : readSlots true page
        (slotOffsets (3 + 2 * keys.length) (keys.zip values)) =
        some (keys.zip values) := by
      apply readSlots_intro _ _ (by rw [length_slotOffsets, hzlen])
      intro k hk
      rw [length_slotOffsets, hzlen] at hk
      have h := (hslotsA k (by omega)).2
      simpa using h
    have hfst : (keys.zip values).map Prod.fst = keys :=
      List.map_fst_zip _ _ (by omega)
    have hsnd : (keys.zip values).map Prod.snd = values :=
      List.map_snd_zip _ _ (by omega)
    simp [decode_node, htag, hnumread, hoffread, hslotread, BNODE_LEAF, hfst, hsnd]
  · -- internal case
    subst hval
    have hne : children ≠ [] := by
      intro h
      rw [h] at hch
      simp at hch
    have hemp : children.isEmpty = false := by
      cases children with
      | nil => exact absurd rfl hne
      | cons c cs => rfl
    simp only [encode_node, mkPairs, BNODE_LEAF, BNODE_INTERNAL, hemp,
      Bool.false_eq_true, if_false, if_true] at henc
    rw [if_neg (by omega : ¬ P < 3)] at henc
    rw [if_neg (by omega : ¬ children.length ≠ keys.length + 1)] at henc
    split at henc
    · exact absurd henc (by simp)
    rename_i h8
    set pairs := keys.map (fun k => (k, ([] : Bytes))) with hpairs
    have hplen2 : pairs.length = keys.length := by
      rw [hpairs, List.length_map]
    have hnum : keys.length % 65536 = keys.length := by
      rcases Nat.eq_zero_or_pos keys.length with h0 | hpos
      · simp [h0]
      · rcases encodeSlots_success_bound _ _ _ _ _ henc with hnil | hbound
        · rw [hnil] at hplen2
          simp at hplen2
          omega
        · rw [hplen2] at hbound
          omega
    rw [hnum] at henc
    have hb1 : (writeBytes (List.replicate P 0) 0 [0]).length = P := by
      rw [writeBytes_length (by simp; omega)]
      simp
    have hb2 : (writeBytes (writeBytes (List.replicate P 0) 0 [0]) 1
        (u16le keys.length)).length = P := by
      rw [writeBytes_length (by simp only [length_u16le]; omega)]
      exact hb1
    have hcspec := writeChildren_spec children 3
      (writeBytes (writeBytes (List.replicate P 0) 0 [0]) 1 (u16le keys.length))
      (by omega)
    obtain ⟨hclen, hclow, hchigh, hcreads⟩ := hcspec
    rw [hb2] at hclen
    have hspec := @encodeSlots_spec maxK maxV P (3 + 8 * children.length)
      false hP pairs 0 _ page
      (3 + 8 * children.length + 2 * keys.length) hclen (by omega) henc
    obtain ⟨hplen, hlowA, hhighA, hslotsA⟩ := hspec
    rw [hplen2] at hhighA hslotsA
    have htag : page[0]? = some 0 := by
      rw [hlowA 0 (by omega), hclow 0 (by omega),
        writeBytes_getElem_lt (by omega) (by rw [hb1]; omega)]
      have h := @writeBytes_getElem_mid (List.replicate P 0) [0] 0 0
        (by simp) (by simp)
      simpa using h
    have hnumread : readLE page 1 2 = some keys.length := by
      have h := @readLE_writeBytes (writeBytes (List.replicate P 0) 0 [0])
        (u16le keys.length) 1 (by simp only [length_u16le]; omega)
      rw [length_u16le] at h
      have hv : leVal (u16le keys.length) = keys.length := by
        rw [leVal_u16le, hnum]
      rw [hv] at h
      apply readLE_congr h (by omega)
      intro j hj1 hj2
      rw [hlowA j (by omega), hclow j (by omega)]
    have hchread : readSeq page 3 8 8 (keys.length + 1) = some children := by
      apply readSeq_intro (keys.length + 1) 3 children (by omega)
      intro k hk
      have hkc : k < children.length := by omega
      have h := hcreads k hkc
      have hcv : children.getD k 0 < 2 ^ 64 := by
        have hm : children.getD k 0 ∈ children := by
          rw [List.getD_eq_getElem children 0 hkc]
          exact List.getElem_mem hkc
        exact hchild _ hm
      rw [leVal_u64le, Nat.mod_eq_of_lt hcv] at h
      apply readLE_congr h (by omega)
      intro j hj1 hj2
      exact hlowA j (by omega)
    have hoffread : readSeq page (3 + 8 * children.length) 2 2 keys.length =
        some (slotOffsets (3 + 8 * children.length + 2 * keys.length) pairs) := by
      apply readSeq_intro keys.length _ _ (by rw [length_slotOffsets, hplen2])
      intro k hk
      have h := (hslotsA k (by omega)).1
      simpa using h
    have hpget : ∀ k, k < keys.length →
        pairs.getD k ([], []) = (keys.getD k [], ([] : Bytes)) := by
      intro k hk
      rw [hpairs, List.getD_eq_getElem _ _ (by rw [List.length_map]; omega),
        List.getD_eq_getElem _ _ hk, List.getElem_map]
    have hslotread : readSlots false page
        (slotOffsets (3 + 8 * children.length + 2 * keys.length) pairs) =
        some pairs := by
      apply readSlots_intro _ _ (by rw [length_slotOffsets, hplen2])
      intro k hk
      rw [length_slotOffsets, hplen2] at hk
      have h := (hslotsA k (by omega)).2
      rw [hpget k (by omega)] at h
      rw [hpget k (by omega)]
      simpa using h
    have hfst : pairs.map Prod.fst = keys := by
      have hcomp : (Prod.fst ∘ fun k : Bytes => (k, ([] : Bytes))) = id := by
        funext k
        rfl
      rw [hpairs, List.map_map, hcomp, List.map_id]
    have hcount : 3 + (keys.length + 1) * 8 = 3 + 8 * children.length := by omega
    simp [decode_node, htag, hnumread, hchread, BNODE_LEAF, hcount, hoffread,
      hslotread, hfst]

/-! ## Claim theorems -/

/-- C1: for every node whose children list is either empty (a leaf,
with exactly one value per key) or exactly one longer than its keys
list (an internal node, with no values), and whose fields encode
successfully under the `node.rs` constants (page size 4096, key limit
1000, value limit 3000), decoding the page produced by the encoder
returns the node itself — the trailing zero padding of the page never
enters the decoder's reads.  Children carry `u64` values, reflected by
the range hypothesis. -/
theorem c1_roundtrip (node : Node) (page : Bytes)
    (hshape : (node.children = [] ∧ node.values.length = node.keys.length) ∨
              (node.children.length = node.keys.length + 1 ∧ node.values = []))
    (hchild : ∀ c ∈ node.children, c < 2 ^ 64)
    (henc : encode_node 4096 1000 3000 node = .encoded page) :
    decode_node page = some node :=
  decode_encode (by omega) (by omega) node page hshape hchild henc

/-- Witness for `c1_roundtrip`: a concrete one-pair leaf (`key1` and
`value1`) round-trips through the 4096-byte page. -/
theorem c1_roundtrip_witness :
    decode_node (encPage (encode_node 4096 1000 3000
      { keys := [[107, 101, 121, 49]], children := [],
        values := [[118, 97, 108, 117, 101, 49]] })) =
    some { keys := [[107, 101, 121, 49]], children := [],
           values := [[118, 97, 108, 117, 101, 49]] } :=
  c1_roundtrip _ _ (Or.inl ⟨rfl, rfl⟩) (by simp) rfl

/-- C3: for every leaf that no longer fits in a page after an insert —
the try-encode returns the needs-split signal — the split of
`propagate_leaf_split` takes `m = ⌊n/2⌋` over the `n` post-insertion
keys: the left sibling holds the entries at positions `[0, m)`, the
right sibling those at `[m, n)`, and the promoted separator equals the
right sibling's first key, which thus remains present in the right
leaf. -/
theorem c3_leaf_split (cfg : StorageConfig) (node : Node) (promoted : Bytes)
    (hleaf : node.children = [])
    (hvals : node.values.length = node.keys.length)
    (hsplit : encode_node cfg.page_size cfg.max_key_size cfg.max_val_size node =
      .needSplit)
    (hprom : node.keys[node.keys.length / 2]? = some promoted) :
    LeafSplitSpec node promoted := by
  obtain ⟨hmlt, hget⟩ := List.getElem?_eq_some.mp hprom
  have hn1 : node.keys.length / 2 < node.keys.length := hmlt
  refine ⟨?_, ?_, ?_, ?_, ?_, ?_, ?_⟩
  · simp only [leafSplitLeft, List.length_take]
    omega
  · simp only [leafSplitLeft, List.length_take]
    omega
  · intro i hi
    constructor
    · simp only [leafSplitLeft]
      exact List.getElem?_take_of_lt hi
    · simp only [leafSplitLeft]
      exact List.getElem?_take_of_lt hi
  · simp only [leafSplitRight, List.length_drop]
  · intro i
    constructor
    · simp only [leafSplitRight]
      exact List.getElem?_drop ..
    · simp only [leafSplitRight]
      exact List.getElem?_drop ..
  · simp only [leafSplitRight]
    have h := List.getElem?_drop node.keys (node.keys.length / 2) 0
    rw [h]
    simpa using hprom
  · simp only [leafSplitRight]
    have hmem : node.keys[node.keys.length / 2] ∈
        node.keys.drop (node.keys.length / 2) := by
      have hd0 : 0 < (node.keys.drop (node.keys.length / 2)).length := by
        simp only [List.length_drop]
        omega
      have h0 : (node.keys.drop (node.keys.length / 2))[0] =
          node.keys[node.keys.length / 2] := by
        rw [List.getElem_drop]
        simp
      rw [← h0]
      exact List.getElem_mem hd0
    rw [← hget]
    exact hmem

/-- Witness for `c3_leaf_split`: the post-insertion leaf
`alpha, beta, charlie` under the test configuration does not fit in its
32-byte page; it splits into `[alpha]` and `[beta, charlie]` with
`beta` promoted. -/
theorem c3_leaf_split_witness :
    LeafSplitSpec
      { keys := [alphaB, betaB, charlieB], children := [],
        values := [oneB, oneB, oneB] } betaB :=
  c3_leaf_split testConfig _ _ rfl (by decide) (by decide) (by decide)

/-- C4: for every internal node that no longer fits in a page after
absorbing a child split — the try-encode returns needs-split — the
split of `propagate_internal_split` takes `m = ⌊keys/2⌋`: the left
sibling holds keys `[0, m)` and children `[0, m]`, the right sibling
keys `[m+1, …)` and children `[m+1, …)`, and the promoted key `keys[m]`
is retained in neither sibling (its keys being pairwise distinct, as
they are in any B+ tree node). -/
theorem c4_internal_split (cfg : StorageConfig) (node : Node) (promoted : Bytes)
    (hint : node.children.length = node.keys.length + 1)
    (hvals : node.values = [])
    (hsplit : encode_node cfg.page_size cfg.max_key_size cfg.max_val_size node =
      .needSplit)
    (hnodup : node.keys.Pairwise (· ≠ ·))
    (hprom : node.keys[node.keys.length / 2]? = some promoted) :
    InternalSplitSpec node promoted := by
  obtain ⟨hmlt, hget⟩ := List.getElem?_eq_some.mp hprom
  have hpw := List.pairwise_iff_getElem.mp hnodup
  refine ⟨?_, ?_, ?_, ?_, ?_, ?_, ?_, ?_, hprom, ?_, ?_⟩
  · simp only [internalSplitLeft, List.length_take]
    omega
  · intro i hi
    simp only [internalSplitLeft]
    exact List.getElem?_take_of_lt hi
  · simp only [internalSplitLeft, List.length_take]
    omega
  · intro i hi
    simp only [internalSplitLeft]
    exact List.getElem?_take_of_lt hi
  · simp only [internalSplitRight, List.length_drop]
  · intro i
    simp only [internalSplitRight]
    exact List.getElem?_drop ..
  · simp only [internalSplitRight, List.length_drop]
  · intro i
    simp only [internalSplitRight]
    exact List.getElem?_drop ..
  · simp only [internalSplitLeft]
    intro hmem
    obtain ⟨i, hi, hieq⟩ := List.getElem_of_mem hmem
    have hilt : i < node.keys.length / 2 := by
      have := hi
      simp only [List.length_take] at this
      omega
    have hik : i < node.keys.length := by omega
    have hival : node.keys[i] = promoted := by
      rw [← hieq, List.getElem_take]
    exact hpw i (node.keys.length / 2) (by omega) hmlt hilt (by rw [hival, hget])
  · simp only [internalSplitRight]
    intro hmem
    obtain ⟨i, hi, hieq⟩ := List.getElem_of_mem hmem
    have hilt : node.keys.length / 2 + 1 + i < node.keys.length := by
      have := hi
      simp only [List.length_drop] at this
      omega
    have hival : node.keys[node.keys.length / 2 + 1 + i] = promoted := by
      rw [← hieq, List.getElem_drop]
    exact hpw (node.keys.length / 2) (node.keys.length / 2 + 1 + i) hmlt hilt
      (by omega) (by rw [hival, hget])

/-- Witness for `c4_internal_split`: an internal node with keys
`beta, charlie` and three children overflows the 32-byte test page; it
splits into left `([beta]` with two children`)` and right `(`no keys,
one child`)`, promoting `charlie`, which neither sibling retains. -/
theorem c4_internal_split_witness :
    InternalSplitSpec
      { keys := [betaB, charlieB], children := [64, 96, 128],
        values := [] } charlieB :=
  c4_internal_split testConfig _ _ rfl rfl (by decide) (by decide) (by decide)

set_option maxRecDepth 100000 in
set_option maxHeartbeats 1000000 in
/-- C2 (evaluation of the code at the failing input): in the committed
two-level tree built by inserting `alpha, beta, charlie` (root keys
`[beta]`, children `[128, 160]`), the descent slot that
`insert_recursive` computes for the key `beta` — equal to the separator
at position 0 — is slot 0, the left child at offset 128; the claim
says the recursion descends into slot `pos + 1 = 1`, the right child
at offset 160, which holds `beta`. -/
theorem c2_descend_on_equal_key :
    insertChildSlot storeABC.root.keys betaB = 0 ∧
    storeABC.root.keys = [betaB] ∧
    storeABC.root.children[0]? = some 128 ∧
    storeABC.root.children[1]? = some 160 ∧
    keysOf testConfig 10 storeABC = some [alphaB, betaB, charlieB] := by
  decide

set_option maxRecDepth 100000 in
set_option maxHeartbeats 1000000 in
/-- C5 (evaluation of the code at the failing input): deleting the
absent key `b` from the store whose committed root is the leaf
`[("a", "1")]` is not a no-op: the run succeeds, but the code appends
an identical leaf page (the file grows from 96 to 128 bytes, one page
write) and commits a new root offset (96 instead of 64).  Only the
key/value content is unchanged.  (On an underfull root — an empty
store, for example — the same path panics with `needs merge!` instead
of doing nothing.) -/
theorem c5_delete_miss_rewrites :
    storeA.root_offset = 64 ∧
    storeA.file.length = 96 ∧
    isOkRun (deleteOp testConfig 10 storeA [98]) = true ∧
    (okOr (deleteOp testConfig 10 storeA [98])).root_offset = 96 ∧
    (okOr (deleteOp testConfig 10 storeA [98])).file.length = 128 ∧
    (okOr (deleteOp testConfig 10 storeA [98])).root.keys = [[97]] := by
  decide

set_option maxRecDepth 100000 in
set_option maxHeartbeats 1000000 in
/-- C6 (evaluation of the code at the failing input): in the two-level
tree holding `alpha, beta, charlie`, deleting the present key `beta`
succeeds but commits the rewritten left leaf as the new root: the
committed tree afterwards holds only `alpha` — `beta` was never
removed from its leaf and `charlie` is lost — instead of the claimed
`alpha, charlie`.  `delete_recursive` returns the child's result
without rebuilding the parent (`btree.rs` line 276). -/
theorem c6_delete_present_key_two_levels :
    keysOf testConfig 10 storeABC = some [alphaB, betaB, charlieB] ∧
    isOkRun (deleteOp testConfig 10 storeABC betaB) = true ∧
    (okOr (deleteOp testConfig 10 storeABC betaB)).root.children = [] ∧
    (okOr (deleteOp testConfig 10 storeABC betaB)).root.keys = [alphaB] ∧
    keysOf testConfig 10 (okOr (deleteOp testConfig 10 storeABC betaB)) =
      some [alphaB] := by
  decide

set_option maxRecDepth 100000 in
set_option maxHeartbeats 1000000 in
/-- C7 (evaluation of the code at the failing input): after inserting
`alpha`, `charlie`, then `("beta", "1")` — whose leaf split promotes
`beta` itself — the committed tree holds three entries; re-inserting
`beta` with value `"2"` descends into the left child (which does not
contain `beta`), so the second insert adds a fourth key instead of
overwriting: both `("beta", "2")` and `("beta", "1")` are in the
committed tree and the key count grows from 3 to 4. -/
theorem c7_duplicate_insert_adds_key :
    entriesOf testConfig 10 storeACB =
      some [(alphaB, oneB), (betaB, oneB), (charlieB, oneB)] ∧
    entriesOf testConfig 10 storeACBB =
      some [(alphaB, oneB), (betaB, twoB), (betaB, oneB), (charlieB, oneB)] := by
  decide

set_option maxRecDepth 100000 in
set_option maxHeartbeats 1000000 in
/-- C9 (evaluation of the code at the failing input): after the insert
sequence `alpha, beta, charlie, beta` from an empty store, the in-order
traversal of the committed tree is `alpha, beta, beta, charlie`, which
is not strictly ascending — the duplicate `beta` breaks sortedness.
The root cause is the descent of `insert_recursive` into the left
child on separator equality. -/
theorem c9_traversal_not_strictly_ascending :
    keysOf testConfig 10 storeABCB = some [alphaB, betaB, betaB, charlieB] ∧
    strictAscending [alphaB, betaB, betaB, charlieB] = false := by
  decide

set_option maxRecDepth 100000 in
set_option maxHeartbeats 1000000 in
/-- C8 counterexample: inserting a 17-byte key (over the 16-byte
`max_key_size`) into the reachable store whose committed root is the
exactly-full leaf `(bigKeyB, bigValB)` does NOT fail before any page
write: the post-insertion leaf overflows the page before the encoder
reaches the oversized entry's assert, so the leaf split writes the
left sibling page — the file grows from 96 to 128 bytes — and only the
right sibling's encode then panics.  The operation does fail and the
committed root offset (64) is untouched, but a page write happened
first, contradicting the claim as stated. -/
theorem c8_counterexample :
    storeBig.file.length = 96 ∧
    read_metadata testConfig storeBig.file = 64 ∧
    isOkRun (insertOp testConfig 10 storeBig oversizedKeyB oneB) = false ∧
    (errFile (insertOp testConfig 10 storeBig oversizedKeyB oneB)).length = 128 ∧
    read_metadata testConfig
      (errFile (insertOp testConfig 10 storeBig oversizedKeyB oneB)) = 64 := by
  decide

/-- Propagation lemma for the amended C8: if the descent from `node`
reaches a leaf whose post-insertion try-encode panics (the size
assertion fires before the cursor overflows the page), then the whole
insert recursion fails with the file exactly as it started — no page
write happens on any level, at any tree height, because every write in
`insert_recursive` occurs only after the recursive call returns
successfully. -/
theorem insert_recursive_panics (cfg : StorageConfig) (key value : Bytes) :
    ∀ (fuel : Nat) (file : Bytes) (node leaf : Node),
      descendLeaf cfg file key fuel node = some leaf →
      encode_node cfg.page_size cfg.max_key_size cfg.max_val_size
        (leafInsert leaf key value) = .panicked →
      insert_recursive cfg fuel file node key value = .error file := by
  intro fuel
  induction fuel with
  | zero =>
    intro file node leaf hdesc _
    simp [descendLeaf] at hdesc
  | succ n ih =>
    intro file node leaf hdesc hpanic
    cases hleaf : node.children.isEmpty with
    | true =>
      simp only [descendLeaf, hleaf, if_true, Option.some.injEq] at hdesc
      subst hdesc
      have hil : insert_into_leaf cfg file node key value = .error file := by
        simp only [insert_into_leaf, append_node_to_disk, hpanic]
        rfl
      simp only [insert_recursive, hleaf, if_true]
      exact hil
    | false =>
      simp only [descendLeaf, hleaf, Bool.false_eq_true, if_false] at hdesc
      split at hdesc
      · exact absurd hdesc (by simp)
      · rename_i child_offset hoff
        split at hdesc
        · exact absurd hdesc (by simp)
        · rename_i child hload
          have hrec := ih file child leaf hdesc hpanic
          simp only [insert_recursive, hleaf, Bool.false_eq_true, if_false, hoff,
            hload, hrec]
          rfl

/-- C8 as amended: an insert whose key or value exceeds the configured
size limit fails before any page is written — no page write, no
mutation, committed root offset unchanged — PROVIDED the descent
reaches a leaf whose post-insertion try-encode hits the size assertion
(panics) rather than first overflowing the page; this holds in
particular whenever the leaf entries preceding the oversized one fit
in the page, as in the spec's own example of an oversized key inserted
into a fresh store, and at any tree height.  (When the page overflows
before the assertion is reached, the triggered leaf split may append
orphaned sibling pages before the failure; see the counterexample.)
The error carries the file at the moment of failure: it equals the
starting file, so neither a page nor the metadata was written. -/
theorem c8_amended (cfg : StorageConfig) (fuel : Nat) (st : BTreeState)
    (key value : Bytes) (leaf : Node)
    (hover : cfg.max_key_size < key.length % 65536 ∨
             cfg.max_val_size < value.length % 65536)
    (hdescend : descendLeaf cfg st.file key fuel st.root = some leaf)
    (hpanic : encode_node cfg.page_size cfg.max_key_size cfg.max_val_size
      (leafInsert leaf key value) = .panicked) :
    insertOp cfg fuel st key value = .error st.file := by
  have hrec := insert_recursive_panics cfg key value fuel st.file st.root leaf
    hdescend hpanic
  simp only [insertOp]
  rw [hrec]
  rfl

set_option maxRecDepth 100000 in
set_option maxHeartbeats 1000000 in
/-- Witness for `c8_amended` on a multi-level store: inserting a
17-byte key into the committed two-level tree `alpha, beta, charlie`
descends into the right leaf `[beta, charlie]`, whose post-insertion
encode hits the key-size assertion before overflowing the page, and
the operation fails with the file — hence the committed root offset —
exactly as before the call. -/
theorem c8_amended_witness :
    (testConfig.max_key_size < oversizedKeyB.length % 65536 ∨
     testConfig.max_val_size < oneB.length % 65536) ∧
    insertOp testConfig 10 storeABC oversizedKeyB oneB = .error storeABC.file :=
  ⟨Or.inl (by decide),
   c8_amended testConfig 10 storeABC oversizedKeyB oneB
     { keys := [betaB, charlieB], children := [], values := [oneB, oneB] }
     (Or.inl (by decide)) (by decide) (by decide)⟩

/-- C10: when the database file holds fewer than 8 bytes past the
metadata offset (a freshly created empty file in particular),
`read_metadata` does not surface the end-of-file error: it returns
root offset 0; and whenever at least 8 bytes are present it returns
those 8 bytes decoded as a little-endian `u64`. -/
theorem c10_read_metadata (cfg : StorageConfig) (file : Bytes) :
    (file.length < cfg.metadata_offset + 8 → read_metadata cfg file = 0) ∧
    (cfg.metadata_offset + 8 ≤ file.length →
      read_metadata cfg file =
        file.getD cfg.metadata_offset 0 +
        256 * file.getD (cfg.metadata_offset + 1) 0 +
        256 ^ 2 * file.getD (cfg.metadata_offset + 2) 0 +
        256 ^ 3 * file.getD (cfg.metadata_offset + 3) 0 +
        256 ^ 4 * file.getD (cfg.metadata_offset + 4) 0 +
        256 ^ 5 * file.getD (cfg.metadata_offset + 5) 0 +
        256 ^ 6 * file.getD (cfg.metadata_offset + 6) 0 +
        256 ^ 7 * file.getD (cfg.metadata_offset + 7) 0) := by
  constructor
  · intro hshort
    simp only [read_metadata, read_exact]
    rw [if_neg (by omega)]
  · intro hlong
    simp only [read_metadata, read_exact]
    rw [if_pos (by omega)]
    have hbyte : ∀ i, i < 8 →
        ((file.drop cfg.metadata_offset).take 8).getD i 0 =
          file.getD (cfg.metadata_offset + i) 0 := by
      intro i hi
      rw [List.getD_eq_getElem?_getD, List.getD_eq_getElem?_getD,
        List.getElem?_take_of_lt hi, List.getElem?_drop]
    have hlen : ((file.drop cfg.metadata_offset).take 8).length = 8 := by
      simp only [List.length_take, List.length_drop]
      omega
    have hb0 := hbyte 0 (by omega)
    have hb1 := hbyte 1 (by omega)
    have hb2 := hbyte 2 (by omega)
    have hb3 := hbyte 3 (by omega)
    have hb4 := hbyte 4 (by omega)
    have hb5 := hbyte 5 (by omega)
    have hb6 := hbyte 6 (by omega)
    have hb7 := hbyte 7 (by omega)
    rcases hl : (file.drop cfg.metadata_offset).take 8 with
      _ | ⟨b0, _ | ⟨b1, _ | ⟨b2, _ | ⟨b3, _ | ⟨b4, _ | ⟨b5, _ | ⟨b6, _ | ⟨b7, rest⟩⟩⟩⟩⟩⟩⟩⟩ <;>
      rw [hl] at hlen <;> simp only [List.length_cons, List.length_nil] at hlen <;>
      try omega
    have hrest : rest = [] := by
      have : rest.length = 0 := by omega
      exact List.eq_nil_of_length_eq_zero this
    subst hrest
    rw [hl] at hb0 hb1 hb2 hb3 hb4 hb5 hb6 hb7
    simp only [List.getD_cons_zero, List.getD_cons_succ] at hb0 hb1 hb2 hb3 hb4 hb5 hb6 hb7
    simp only [Nat.add_zero] at hb0
    simp only [leVal]
    rw [← hb0, ← hb1, ← hb2, ← hb3, ← hb4, ← hb5, ← hb6, ← hb7]
    ring

/-- Witness for `c10_read_metadata`: an empty file yields root offset
0, and a file whose first 8 bytes are the little-endian encoding of 32
yields root offset 32. -/
theorem c10_read_metadata_witness :
    read_metadata testConfig [] = 0 ∧
    read_metadata testConfig [32, 0, 0, 0, 0, 0, 0, 0, 9, 9] = 32 := by
  constructor
  · exact (c10_read_metadata testConfig []).1 (by decide)
  · have h := (c10_read_metadata testConfig
      [32, 0, 0, 0, 0, 0, 0, 0, 9, 9]).2 (by decide)
    rw [h]
    decide
